import Mathlib

/-!
Shallow embedding of the jsonnet-bundler rename engine (`src/main.go`).

Source strings and byte buffers are modelled as `List Char` (the inputs the
engine handles are ASCII, where UTF-8 bytes and code points coincide); Go
`int` values are modelled as `Int`.  Go's partial slice operations, which
panic when an index is out of range, are modelled as `Option`-valued
functions, `none` standing for the run-aborting panic.
-/

namespace JsonnetBundler

/-- FNV-1a 32-bit hash of a byte string, as `hash/fnv`'s `New32a` computes it:
start from the offset basis 2166136261 and, for each byte, xor it in and
multiply by the prime 16777619, keeping 32 bits. -/
def fnv1a32 (s : List Char) : Nat :=
  s.foldl (fun h c => ((h ^^^ c.toNat) * 16777619) % 4294967296) 2166136261

/-- The character for one hexadecimal digit, lowercase, as `fmt`'s `%x` prints it. -/
def hexDigitChar (d : Nat) : Char :=
  if d < 10 then Char.ofNat (48 + d) else Char.ofNat (87 + d)

/-- Fixed-width 8-digit lowercase hexadecimal rendering of a 32-bit value,
as `fmt.Sprintf` with the verb `%08x` renders it. -/
def toHex8 (n : Nat) : List Char :=
  (List.range 8).map (fun i => hexDigitChar ((n / 16 ^ (7 - i)) % 16))

/-- Embeds `hash` (`src/main.go`): FNV-1a 32-bit hash of the filename rendered
via `fmt.Sprintf "_%08x"`, an underscore followed by 8 hex digits. -/
def hash (filename : List Char) : List Char :=
  '_' :: toHex8 (fnv1a32 filename)

/-- Helper for `buildLineOffsets`: offsets contributed by the loop body, with
`i` the byte index of the head of the remaining input. -/
def buildLineOffsetsAux : List Char → Nat → List Int
  | [], _ => []
  | b :: rest, i =>
      if b = '\n' then ((i : Int) + 1) :: buildLineOffsetsAux rest (i + 1)
      else buildLineOffsetsAux rest (i + 1)

/-- Embeds `buildLineOffsets` (`src/main.go`): starts with `[0]` and appends
`i+1` for every newline byte at index `i`. -/
def buildLineOffsets (source : List Char) : List Int :=
  0 :: buildLineOffsetsAux source 0

/-- Embeds `lineColToOffset` (`src/main.go`): `table[line] + col`, with a
defensive `0` when `line` is outside the table's bounds. -/
def lineColToOffset (lineOffsets : List Int) (line col : Int) : Int :=
  if line < 0 ∨ (lineOffsets.length : Int) ≤ line then 0
  else lineOffsets.getD line.toNat 0 + col

/-- Embeds the struct `Replacement` (`src/main.go`). -/
structure Replacement where
  beginOffset : Int
  endOffset : Int
  newValue : List Char
  deriving DecidableEq, Repr

/-- Embeds the struct `Context` (`src/main.go`).  The Go field `prefix` is
named `filePfx` here; the set `localBinds` (a Go `map[string]struct{}`) is a
duplicate-free list queried by membership. -/
structure Context where
  filePfx : List Char
  replacements : List Replacement
  source : List Char
  lineOffsets : List Int
  localBinds : List (List Char)
  deriving DecidableEq, Repr

/-- Go slice expression `source[b:e]`: defined (length `e - b`) when
`0 ≤ b ≤ e ≤ length`, a run-aborting panic (`none`) otherwise. -/
def goSlice (source : List Char) (b e : Int) : Option (List Char) :=
  if 0 ≤ b ∧ b ≤ e ∧ e ≤ (source.length : Int) then
    some ((source.drop b.toNat).take (e - b).toNat)
  else none

/-- Embeds a Go source location range (1-indexed lines and columns, with the
`IsSet` flag of `ast.LocationRange`). -/
structure LocRange where
  isSet : Bool
  beginLine : Int
  beginColumn : Int
  endLine : Int
  endColumn : Int
  deriving DecidableEq, Repr

/-- Embeds `ast.LocalBind` as far as the engine reads it: the bound variable
name and the bind's location range. -/
structure LocalBind where
  varName : List Char
  locRange : LocRange
  deriving DecidableEq, Repr

/-- Embeds the syntax tree as the engine observes it through the parser
collaborator: a node is a variable reference (`*ast.Var` with its
identifier), a local construct (`*ast.Local` with its binds), or anything
else; every node exposes a location and its children. -/
inductive Node where
  | varNode (id : List Char) (loc : LocRange) (children : List Node)
  | localNode (binds : List LocalBind) (loc : LocRange) (children : List Node)
  | otherNode (loc : LocRange) (children : List Node)

/-- Outcome of one candidate-collection call: the Go function returns an
error (recovered by the caller), returns a replacement, or panics on an
out-of-range slice. -/
inductive CollectResult where
  | panic
  | noMatch
  | found (r : Replacement)
  deriving DecidableEq, Repr

/-- Begin offset both collectors compute: begin line and column, 0-indexed,
resolved through `lineColToOffset`. -/
def beginOffsetOf (ctx : Context) (loc : LocRange) : Int :=
  lineColToOffset ctx.lineOffsets (loc.beginLine - 1) (loc.beginColumn - 1)

/-- End offset `collectLocalBindReplacement` computes: the synthetic column
`Begin.Column + len(oldName) - 1` resolved on the 0-indexed end line. -/
def bindEndOffset (ctx : Context) (loc : LocRange) (oldName : List Char) : Int :=
  lineColToOffset ctx.lineOffsets (loc.endLine - 1) (loc.beginColumn + oldName.length - 1)

/-- End offset `collectVarReplacement` computes: the parser's end line and
end column, both 0-indexed. -/
def varEndOffset (ctx : Context) (loc : LocRange) : Int :=
  lineColToOffset ctx.lineOffsets (loc.endLine - 1) (loc.endColumn - 1)

/-- Embeds `collectLocalBindReplacement` (`src/main.go`): with a set
location, resolve the begin offset and the synthetic end offset, slice the
source there, and accept the replacement only when the span equals
`oldName`; an unset location or a failed verification is the recovered
`noMatch` error. -/
def collectLocalBindReplacement (ctx : Context) (node : LocalBind)
    (oldName newName : List Char) : CollectResult :=
  if node.locRange.isSet then
    match goSlice ctx.source (beginOffsetOf ctx node.locRange)
        (bindEndOffset ctx node.locRange oldName) with
    | none => CollectResult.panic
    | some span =>
        if span = oldName then
          CollectResult.found
            ⟨beginOffsetOf ctx node.locRange, bindEndOffset ctx node.locRange oldName, newName⟩
        else CollectResult.noMatch
  else CollectResult.noMatch

/-- Embeds `collectVarReplacement` (`src/main.go`): like the bind version but
the end offset is trusted from the node's own end location. -/
def collectVarReplacement (ctx : Context) (loc : LocRange)
    (oldName newName : List Char) : CollectResult :=
  if loc.isSet then
    match goSlice ctx.source (beginOffsetOf ctx loc) (varEndOffset ctx loc) with
    | none => CollectResult.panic
    | some span =>
        if span = oldName then
          CollectResult.found ⟨beginOffsetOf ctx loc, varEndOffset ctx loc, newName⟩
        else CollectResult.noMatch
  else CollectResult.noMatch

/-- Insertion into the `localBinds` set (Go `map[string]struct{}` assignment). -/
def insertName (l : List (List Char)) (x : List Char) : List (List Char) :=
  if x ∈ l then l else l ++ [x]

/-- Embeds the `for _, b := range n.Binds` loop of
`collectLocalBindReplacements` (`src/main.go`): each successful candidate
appends a replacement and registers the bound name; a recovered error skips
the bind; a panic aborts. -/
def collectBinds : Context → List LocalBind → Option Context
  | ctx, [] => some ctx
  | ctx, b :: bs =>
      match collectLocalBindReplacement ctx b b.varName (ctx.filePfx ++ '_' :: b.varName) with
      | CollectResult.panic => none
      | CollectResult.noMatch => collectBinds ctx bs
      | CollectResult.found r =>
          collectBinds
            { ctx with replacements := ctx.replacements ++ [r],
                       localBinds := insertName ctx.localBinds b.varName } bs

mutual

/-- Embeds `collectLocalBindReplacements` (`src/main.go`): handle the binds
of a `*ast.Local` node, then recurse into every child of every node. -/
def collectLocalBindReplacements : Context → Node → Option Context
  | ctx, Node.varNode _ _ cs => collectLocalBindRepsList ctx cs
  | ctx, Node.localNode binds _ cs =>
      match collectBinds ctx binds with
      | none => none
      | some ctx' => collectLocalBindRepsList ctx' cs
  | ctx, Node.otherNode _ cs => collectLocalBindRepsList ctx cs

/-- The `for _, child := range parser.Children(node)` loop of the bind pass. -/
def collectLocalBindRepsList : Context → List Node → Option Context
  | ctx, [] => some ctx
  | ctx, n :: ns =>
      match collectLocalBindReplacements ctx n with
      | none => none
      | some ctx' => collectLocalBindRepsList ctx' ns

end

mutual

/-- Embeds `collectVarReplacements` (`src/main.go`): at a `*ast.Var` node
whose identifier is in `localBinds`, collect a candidate; then recurse into
every child of every node. -/
def collectVarReplacements : Context → Node → Option Context
  | ctx, Node.varNode id loc cs =>
      if id ∈ ctx.localBinds then
        match collectVarReplacement ctx loc id (ctx.filePfx ++ '_' :: id) with
        | CollectResult.panic => none
        | CollectResult.noMatch => collectVarRepsList ctx cs
        | CollectResult.found r =>
            collectVarRepsList { ctx with replacements := ctx.replacements ++ [r] } cs
      else collectVarRepsList ctx cs
  | ctx, Node.localNode _ _ cs => collectVarRepsList ctx cs
  | ctx, Node.otherNode _ cs => collectVarRepsList ctx cs

/-- The `for _, child := range parser.Children(node)` loop of the reference pass. -/
def collectVarRepsList : Context → List Node → Option Context
  | ctx, [] => some ctx
  | ctx, n :: ns =>
      match collectVarReplacements ctx n with
      | none => none
      | some ctx' => collectVarRepsList ctx' ns

end

/-- Insertion step of the descending sort: a deterministic realisation of
`sort.Slice` with the comparator `reps[i].beginOffset > reps[j].beginOffset`. -/
def insertDesc (r : Replacement) : List Replacement → List Replacement
  | [] => [r]
  | x :: xs => if x.beginOffset < r.beginOffset then r :: x :: xs else x :: insertDesc r xs

/-- Sorts replacements by `beginOffset` descending (the `sort.Slice` call of
`applyReplacements` in `src/main.go`). -/
def sortByBeginDesc : List Replacement → List Replacement
  | [] => []
  | r :: rs => insertDesc r (sortByBeginDesc rs)

/-- Go splice `append(out[:b], append([]byte(new), out[e:]...)...)`: defined
when both `out[:b]` and `out[e:]` are in range, a panic (`none`) otherwise. -/
def splice (buf : List Char) (b e : Int) (newValue : List Char) : Option (List Char) :=
  if 0 ≤ b ∧ b ≤ (buf.length : Int) ∧ 0 ≤ e ∧ e ≤ (buf.length : Int) then
    some (buf.take b.toNat ++ newValue ++ buf.drop e.toNat)
  else none

/-- The application loop of `applyReplacements` (`src/main.go`). -/
def applyLoop (buf : List Char) : List Replacement → Option (List Char)
  | [] => some buf
  | r :: rs =>
      match splice buf r.beginOffset r.endOffset r.newValue with
      | none => none
      | some buf' => applyLoop buf' rs

/-- Embeds `applyReplacements` (`src/main.go`): sort by begin offset
descending, then splice each replacement into the buffer in that order. -/
def applyReplacements (ctx : Context) : Option (List Char) :=
  applyLoop ctx.source (sortByBeginDesc ctx.replacements)

/-- The provenance header `main` prepends to the rewritten source; `now` is
the formatted `time.Now()` reading of the run. -/
def engineHeader (path now : List Char) : List Char :=
  ("// Auto-generated by jsonnet-bundler at ").toList ++ now
    ++ (" for ").toList ++ path ++ ['\n']

/-- Embeds the processing pipeline of `main` (`src/main.go`) on one file:
build the context from the file identity and its bytes, run the bind pass,
then the reference pass, apply the replacements, and prepend the provenance
header.  `ast` is the tree the external parser produced from `code`; `now`
is the clock reading. -/
def runEngine (path code : List Char) (ast : Node) (now : List Char) : Option (List Char) :=
  let ctx : Context :=
    { filePfx := hash path, replacements := [], source := code,
      lineOffsets := buildLineOffsets code, localBinds := [] }
  (collectLocalBindReplacements ctx ast).bind fun ctx₁ =>
    (collectVarReplacements ctx₁ ast).bind fun ctx₂ =>
      (applyReplacements ctx₂).map fun out => engineHeader path now ++ out

/-! ## C10: applying an empty replacement list is the identity -/

/-- C10: for every source buffer, the Replacement Applier invoked with zero
pending edits returns a buffer byte-identical to the original source buffer. -/
theorem c10_empty_apply_identity (pfx src : List Char) (tbl : List Int) (lb : List (List Char)) :
    applyReplacements
      { filePfx := pfx, replacements := [], source := src, lineOffsets := tbl, localBinds := lb }
      = some src := rfl

/-! ## C6: the span resolver's contract -/

/-- C6: for every table and every non-negative 0-indexed line and column, the
span resolver returns `table[line] + col` when `line` is within the table's
bounds, and returns 0 when `line` is out of the table's bounds. -/
theorem c6_lineColToOffset_contract (tbl : List Int) (line col : Int)
    (hline : 0 ≤ line) (_hcol : 0 ≤ col) :
    (line < (tbl.length : Int) → lineColToOffset tbl line col = tbl.getD line.toNat 0 + col)
    ∧ ((tbl.length : Int) ≤ line → lineColToOffset tbl line col = 0) := by
  unfold lineColToOffset
  constructor
  · intro h; rw [if_neg (by omega)]
  · intro h; rw [if_pos (by omega)]

/-- Witness for C6 at the concrete table `[0, 3]`: line 1 is in bounds and
resolves to `3 + 2`, line 5 is out of bounds and resolves to 0. -/
theorem c6_witness :
    lineColToOffset [0, 3] 1 2 = ([0, 3] : List Int).getD 1 0 + 2
    ∧ lineColToOffset [0, 3] 5 2 = 0 := by
  have h1 := c6_lineColToOffset_contract [0, 3] 1 2 (by decide) (by decide)
  have h2 := c6_lineColToOffset_contract [0, 3] 5 2 (by decide) (by decide)
  exact ⟨h1.1 (by decide), h2.2 (by decide)⟩

/-! ## C8: shape of the generated name -/

/-- The FNV-1a fold keeps its accumulator below `2^32`. -/
theorem foldlStep_lt (s : List Char) (h : Nat) (hh : h < 4294967296) :
    s.foldl (fun a c => ((a ^^^ c.toNat) * 16777619) % 4294967296) h < 4294967296 := by
  induction s generalizing h with
  | nil => simpa using hh
  | cons c cs ih => exact ih _ (Nat.mod_lt _ (by norm_num))

/-- The hash value is a 32-bit quantity. -/
theorem fnv1a32_lt (s : List Char) : fnv1a32 s < 4294967296 :=
  foldlStep_lt s _ (by norm_num)

/-- Every hexadecimal digit character is a decimal digit or one of `a`–`f`. -/
theorem hexDigitChar_hex (d : Nat) (hd : d < 16) :
    (hexDigitChar d).isDigit = true ∨ ('a' ≤ hexDigitChar d ∧ hexDigitChar d ≤ 'f') := by
  interval_cases d <;> decide

/-- C8: the name generator is a pure function of the file identity (it is a
Lean function, so two applications to the same path are definitionally the
same string, as the first conjunct records); its value is a 32-bit hash
rendered as fixed-width 8-digit hexadecimal prefixed with the non-digit
character `_`, so every character after the head is a hex digit and the
result is a syntactically valid leading identifier fragment. -/
theorem c8_hash_shape (s : List Char) :
    hash s = '_' :: toHex8 (fnv1a32 s)
    ∧ fnv1a32 s < 4294967296
    ∧ (hash s).length = 9
    ∧ (hash s).head? = some '_'
    ∧ ('_').isDigit = false
    ∧ ∀ c ∈ (hash s).tail, c.isDigit = true ∨ ('a' ≤ c ∧ c ≤ 'f') := by
  refine ⟨rfl, fnv1a32_lt s, by simp [hash, toHex8], rfl, by decide, ?_⟩
  intro c hc
  simp only [hash, List.tail_cons, toHex8, List.mem_map, List.mem_range] at hc
  obtain ⟨i, _, rfl⟩ := hc
  exact hexDigitChar_hex _ (Nat.mod_lt _ (by norm_num))

/-- Witness for C8: the hash of the empty path is `_811c9dc5`; its second
character `8` is indeed a digit-or-hex-letter. -/
theorem c8_witness :
    ('8' ∈ (hash []).tail) ∧ ('8'.isDigit = true ∨ ('a' ≤ '8' ∧ '8' ≤ 'f')) :=
  ⟨by decide, (c8_hash_shape []).2.2.2.2.2 '8' (by decide)⟩

/-! ## C7: invariants of the line-offset table -/

/-- Ranges can be peeled from the left. -/
theorem range_succ_left (n : Nat) : List.range (n + 1) = 0 :: (List.range n).map (· + 1) := by
  induction n with
  | zero => rfl
  | succ n ih =>
      calc List.range (n + 1 + 1) = List.range (n + 1) ++ [n + 1] := List.range_succ (n + 1)
        _ = (0 :: (List.range n).map (· + 1)) ++ [n + 1] := by rw [ih]
        _ = 0 :: ((List.range n).map (· + 1) ++ [n + 1]) := List.cons_append 0 _ _
        _ = 0 :: ((List.range n ++ [n]).map (· + 1)) := by simp
        _ = 0 :: (List.range (n + 1)).map (· + 1) := by rw [List.range_succ]

/-- Filtering a shifted list is the shift of a filter. -/
theorem filter_map_add_one (l : List Nat) (f : Nat → Bool) :
    (l.map (· + 1)).filter f = (l.filter (fun p => f (p + 1))).map (· + 1) := by
  induction l with
  | nil => rfl
  | cons a l ih => by_cases h : f (a + 1) <;> simp [List.filter_cons, h, ih]

/-- Positions of the newline characters of the buffer, in increasing order:
the byte offset of the start of line `i + 1` is one past the `i`-th newline,
and line 0 starts at offset 0. -/
def newlinePositions (src : List Char) : List Nat :=
  (List.range src.length).filter (fun p => decide (src.getD p ' ' = '\n'))

/-- The loop of `buildLineOffsets` enumerates one-past-newline offsets. -/
theorem buildLineOffsetsAux_eq (src : List Char) :
    ∀ i : Nat, buildLineOffsetsAux src i
      = (newlinePositions src).map (fun p => ((i + p : Nat) : Int) + 1) := by
  induction src with
  | nil => intro i; rfl
  | cons c rest ih =>
      intro i
      unfold newlinePositions at *
      rw [List.length_cons, range_succ_left, List.filter_cons, filter_map_add_one]
      simp only [List.getD_cons_zero, List.getD_cons_succ]
      by_cases h : c = '\n'
      · rw [if_pos (by simpa using h)]
        unfold buildLineOffsetsAux
        rw [if_pos h, ih (i + 1)]
        simp only [List.map_cons, List.map_map, Nat.add_zero]
        congr 1
        apply List.map_congr_left
        intro p _
        simp only [Function.comp_apply]
        push_cast
        ring
      · rw [if_neg (by simpa using h)]
        unfold buildLineOffsetsAux
        rw [if_neg h, ih (i + 1)]
        rw [List.map_map]
        apply List.map_congr_left
        intro p _
        simp only [Function.comp_apply]
        push_cast
        ring

/-- Entries of the `buildLineOffsets` loop dominate the running index and
increase strictly. -/
theorem buildLineOffsetsAux_bounds (src : List Char) :
    ∀ i : Nat, (∀ x ∈ buildLineOffsetsAux src i, (i : Int) < x)
      ∧ List.Pairwise (· < ·) (buildLineOffsetsAux src i) := by
  induction src with
  | nil => intro i; exact ⟨fun x hx => absurd hx (List.not_mem_nil x), List.Pairwise.nil⟩
  | cons c rest ih =>
      intro i
      unfold buildLineOffsetsAux
      by_cases h : c = '\n'
      · rw [if_pos h]
        obtain ⟨hb, hp⟩ := ih (i + 1)
        refine ⟨?_, ?_⟩
        · intro x hx
          rcases List.mem_cons.mp hx with rfl | hx
          · omega
          · have := hb x hx; omega
        · exact List.Pairwise.cons (fun x hx => by have := hb x hx; omega) hp
      · rw [if_neg h]
        obtain ⟨hb, hp⟩ := ih (i + 1)
        exact ⟨fun x hx => by have := hb x hx; omega, hp⟩

/-- The `buildLineOffsets` loop contributes one entry per newline. -/
theorem buildLineOffsetsAux_length (src : List Char) :
    ∀ i : Nat, (buildLineOffsetsAux src i).length = src.count '\n' := by
  induction src with
  | nil => intro i; rfl
  | cons c rest ih =>
      intro i
      unfold buildLineOffsetsAux
      by_cases h : c = '\n'
      · rw [if_pos h]
        simp [List.count_cons, h, ih (i + 1)]
      · rw [if_neg h]
        simp [List.count_cons, h, ih (i + 1)]

/-- C7: for every source buffer the line-offset table is `0` followed by the
one-past-each-newline offsets in order (entry `i` is the byte offset of the
start of line `i`), it is strictly increasing, its length is the number of
newline characters plus one, and its first entry is 0. -/
theorem c7_line_offset_table (src : List Char) :
    buildLineOffsets src = 0 :: (newlinePositions src).map (fun p : Nat => (p : Int) + 1)
    ∧ List.Pairwise (· < ·) (buildLineOffsets src)
    ∧ (buildLineOffsets src).length = src.count '\n' + 1
    ∧ (buildLineOffsets src).head? = some 0 := by
  refine ⟨?_, ?_, ?_, rfl⟩
  · unfold buildLineOffsets
    rw [buildLineOffsetsAux_eq src 0]
    congr 1
    apply List.map_congr_left
    intro p _
    norm_num
  · unfold buildLineOffsets
    obtain ⟨hb, hp⟩ := buildLineOffsetsAux_bounds src 0
    exact List.Pairwise.cons (fun x hx => by have := hb x hx; omega) hp
  · unfold buildLineOffsets
    simp [buildLineOffsetsAux_length src 0]

/-! ## C1: how the bind collector computes the end offset -/

/-- Counterexample to C1 as stated: a bind whose begin line is out of the
table's bounds but whose end line is line 1 is accepted with end offset 1,
while resolving the synthetic column `begin.column + length(oldName) - 1` on
the begin line (as the claim says) yields 0, not 1 — the code resolves the
synthetic column on the parser's end line, not on the begin line. -/
theorem c1_counterexample :
    collectLocalBindReplacement
        { filePfx := ['p'], replacements := [], source := ['x'],
          lineOffsets := buildLineOffsets ['x'], localBinds := [] }
        { varName := ['x'],
          locRange :=
            { isSet := true, beginLine := 100, beginColumn := 1, endLine := 1, endColumn := 1 } }
        ['x'] ['y']
      = CollectResult.found { beginOffset := 0, endOffset := 1, newValue := ['y'] }
    ∧ lineColToOffset (buildLineOffsets ['x']) (100 - 1) (1 + (1 : Int) - 1) ≠ 1 := by
  decide

/-- C1 (amended): every accepted bind edit's begin offset is resolved from the
begin line and begin column, and its end offset is computed synthetically as
`begin.column + length(oldName) - 1` resolved on the binding's end line; the
parser's end-column field is never consulted (replacing it by any value
leaves the result unchanged). -/
theorem c1_amended (ctx : Context) (b : LocalBind) (old new' : List Char) (r : Replacement)
    (h : collectLocalBindReplacement ctx b old new' = CollectResult.found r) :
    r.beginOffset
      = lineColToOffset ctx.lineOffsets (b.locRange.beginLine - 1) (b.locRange.beginColumn - 1)
    ∧ r.endOffset
      = lineColToOffset ctx.lineOffsets (b.locRange.endLine - 1)
          (b.locRange.beginColumn + (old.length : Int) - 1)
    ∧ ∀ c : Int,
        collectLocalBindReplacement ctx
          { b with locRange := { b.locRange with endColumn := c } } old new'
        = collectLocalBindReplacement ctx b old new' := by
  have hr : r = ⟨beginOffsetOf ctx b.locRange, bindEndOffset ctx b.locRange old, new'⟩ := by
    unfold collectLocalBindReplacement at h
    split at h
    · split at h
      · exact CollectResult.noConfusion h
      · split at h
        · exact ((CollectResult.found.injEq _ _).mp h).symm
        · exact CollectResult.noConfusion h
    · exact CollectResult.noConfusion h
  rw [hr]
  exact ⟨rfl, rfl, fun c => rfl⟩

/-- Witness for C1 (amended) at a one-character source with a well-formed
location. -/
theorem c1_amended_witness :
    ((0 : Int) = lineColToOffset (buildLineOffsets ['x']) (1 - 1) ((1 : Int) - 1))
    ∧ ((1 : Int) = lineColToOffset (buildLineOffsets ['x']) (1 - 1) (1 + ((1 : Nat) : Int) - 1))
    ∧ collectLocalBindReplacement
        { filePfx := ['p'], replacements := [], source := ['x'],
          lineOffsets := buildLineOffsets ['x'], localBinds := [] }
        { varName := ['x'],
          locRange :=
            { isSet := true, beginLine := 1, beginColumn := 1, endLine := 1, endColumn := 42 } }
        ['x'] ['y']
      = collectLocalBindReplacement
        { filePfx := ['p'], replacements := [], source := ['x'],
          lineOffsets := buildLineOffsets ['x'], localBinds := [] }
        { varName := ['x'],
          locRange :=
            { isSet := true, beginLine := 1, beginColumn := 1, endLine := 1, endColumn := 2 } }
        ['x'] ['y'] := by
  have h := c1_amended
    { filePfx := ['p'], replacements := [], source := ['x'],
      lineOffsets := buildLineOffsets ['x'], localBinds := [] }
    { varName := ['x'],
      locRange :=
        { isSet := true, beginLine := 1, beginColumn := 1, endLine := 1, endColumn := 2 } }
    ['x'] ['y'] { beginOffset := 0, endOffset := 1, newValue := ['y'] } (by decide)
  exact ⟨h.1, h.2.1, h.2.2 42⟩

/-! ## C4: span mismatch and unset location are recovered locally -/

/-- C4: an unset location or a verified span that differs from the expected
identifier drops that single candidate — the bind loop and the reference
traversal proceed exactly as if the candidate were absent, recording no edit
and never aborting or propagating an error out of the pass. -/
theorem c4_skip_and_continue (ctx : Context) (b : LocalBind) (bs : List LocalBind)
    (id : List Char) (loc : LocRange) (cs : List Node) (span : List Char) :
    (b.locRange.isSet = false → collectBinds ctx (b :: bs) = collectBinds ctx bs)
    ∧ (loc.isSet = false →
        collectVarReplacements ctx (Node.varNode id loc cs) = collectVarRepsList ctx cs)
    ∧ (goSlice ctx.source (beginOffsetOf ctx b.locRange)
          (bindEndOffset ctx b.locRange b.varName) = some span →
        span ≠ b.varName → collectBinds ctx (b :: bs) = collectBinds ctx bs)
    ∧ (goSlice ctx.source (beginOffsetOf ctx loc) (varEndOffset ctx loc) = some span →
        span ≠ id →
        collectVarReplacements ctx (Node.varNode id loc cs) = collectVarRepsList ctx cs) := by
  refine ⟨?_, ?_, ?_, ?_⟩
  · intro h
    have hnm : collectLocalBindReplacement ctx b b.varName (ctx.filePfx ++ '_' :: b.varName)
        = CollectResult.noMatch := by
      unfold collectLocalBindReplacement
      rw [h]
      simp
    rw [collectBinds, hnm]
  · intro h
    have hnm : collectVarReplacement ctx loc id (ctx.filePfx ++ '_' :: id)
        = CollectResult.noMatch := by
      unfold collectVarReplacement
      rw [h]
      simp
    rw [collectVarReplacements, hnm]
    by_cases hm : id ∈ ctx.localBinds <;> simp [hm]
  · intro hgs hne
    have hnm : collectLocalBindReplacement ctx b b.varName (ctx.filePfx ++ '_' :: b.varName)
        = CollectResult.noMatch := by
      unfold collectLocalBindReplacement
      by_cases hset : b.locRange.isSet
      · rw [if_pos hset, hgs]
        exact if_neg hne
      · rw [if_neg hset]
    rw [collectBinds, hnm]
  · intro hgs hne
    have hnm : collectVarReplacement ctx loc id (ctx.filePfx ++ '_' :: id)
        = CollectResult.noMatch := by
      unfold collectVarReplacement
      by_cases hset : loc.isSet
      · rw [if_pos hset, hgs]
        exact if_neg hne
      · rw [if_neg hset]
    rw [collectVarReplacements, hnm]
    by_cases hm : id ∈ ctx.localBinds <;> simp [hm]

/-- Witness for C4 on a two-character source: one unset bind, one unset
reference, one mismatching bind, one mismatching reference. -/
theorem c4_witness :
    collectBinds
        { filePfx := ['p'], replacements := [], source := ['a', 'b'],
          lineOffsets := buildLineOffsets ['a', 'b'], localBinds := [] }
        [{ varName := ['x'],
           locRange :=
             { isSet := false, beginLine := 1, beginColumn := 1, endLine := 1, endColumn := 1 } }]
      = collectBinds
        { filePfx := ['p'], replacements := [], source := ['a', 'b'],
          lineOffsets := buildLineOffsets ['a', 'b'], localBinds := [] } []
    ∧ collectVarReplacements
        { filePfx := ['p'], replacements := [], source := ['a', 'b'],
          lineOffsets := buildLineOffsets ['a', 'b'], localBinds := [] }
        (Node.varNode ['z']
          { isSet := false, beginLine := 1, beginColumn := 1, endLine := 1, endColumn := 1 } [])
      = collectVarRepsList
        { filePfx := ['p'], replacements := [], source := ['a', 'b'],
          lineOffsets := buildLineOffsets ['a', 'b'], localBinds := [] } []
    ∧ collectBinds
        { filePfx := ['p'], replacements := [], source := ['a', 'b'],
          lineOffsets := buildLineOffsets ['a', 'b'], localBinds := [] }
        [{ varName := ['x'],
           locRange :=
             { isSet := true, beginLine := 1, beginColumn := 1, endLine := 1, endColumn := 2 } }]
      = collectBinds
        { filePfx := ['p'], replacements := [], source := ['a', 'b'],
          lineOffsets := buildLineOffsets ['a', 'b'], localBinds := [] } []
    ∧ collectVarReplacements
        { filePfx := ['p'], replacements := [], source := ['a', 'b'],
          lineOffsets := buildLineOffsets ['a', 'b'], localBinds := [] }
        (Node.varNode ['z']
          { isSet := true, beginLine := 1, beginColumn := 1, endLine := 1, endColumn := 2 } [])
      = collectVarRepsList
        { filePfx := ['p'], replacements := [], source := ['a', 'b'],
          lineOffsets := buildLineOffsets ['a', 'b'], localBinds := [] } [] := by
  refine ⟨?_, ?_, ?_, ?_⟩
  · exact (c4_skip_and_continue _
      { varName := ['x'],
        locRange :=
          { isSet := false, beginLine := 1, beginColumn := 1, endLine := 1, endColumn := 1 } }
      [] ['z']
      { isSet := false, beginLine := 1, beginColumn := 1, endLine := 1, endColumn := 1 }
      [] ['a']).1 rfl
  · exact (c4_skip_and_continue _
      { varName := ['x'],
        locRange :=
          { isSet := false, beginLine := 1, beginColumn := 1, endLine := 1, endColumn := 1 } }
      [] ['z']
      { isSet := false, beginLine := 1, beginColumn := 1, endLine := 1, endColumn := 1 }
      [] ['a']).2.1 rfl
  · exact (c4_skip_and_continue _
      { varName := ['x'],
        locRange :=
          { isSet := true, beginLine := 1, beginColumn := 1, endLine := 1, endColumn := 2 } }
      [] ['z']
      { isSet := true, beginLine := 1, beginColumn := 1, endLine := 1, endColumn := 2 }
      [] ['a']).2.2.1 (by decide) (by decide)
  · exact (c4_skip_and_continue _
      { varName := ['x'],
        locRange :=
          { isSet := true, beginLine := 1, beginColumn := 1, endLine := 1, endColumn := 2 } }
      [] ['z']
      { isSet := true, beginLine := 1, beginColumn := 1, endLine := 1, endColumn := 2 }
      [] ['a']).2.2.2 (by decide) (by decide)

/-! ## C5: the reference pass is driven only by the rename set -/

/-- C5: at a variable-reference node the only test is membership of the
identifier's text in `localBinds` (the engine is scope-blind: no scope data
exists to consult): an identifier not in the set yields no edit and leaves
the context untouched, a member identifier whose candidate verifies is
recorded, and any recorded edit implies membership. -/
theorem c5_reference_pass (ctx : Context) (id : List Char) (loc : LocRange)
    (r : Replacement) (ctx' : Context) :
    (id ∉ ctx.localBinds → collectVarReplacements ctx (Node.varNode id loc []) = some ctx)
    ∧ (id ∈ ctx.localBinds →
        collectVarReplacement ctx loc id (ctx.filePfx ++ '_' :: id) = CollectResult.found r →
        collectVarReplacements ctx (Node.varNode id loc [])
          = some { ctx with replacements := ctx.replacements ++ [r] })
    ∧ (collectVarReplacements ctx (Node.varNode id loc []) = some ctx' →
        ctx'.replacements ≠ ctx.replacements → id ∈ ctx.localBinds) := by
  refine ⟨?_, ?_, ?_⟩
  · intro h
    rw [collectVarReplacements, if_neg h, collectVarRepsList]
  · intro hm hf
    rw [collectVarReplacements, if_pos hm, hf]
    show collectVarRepsList { ctx with replacements := ctx.replacements ++ [r] } []
      = some { ctx with replacements := ctx.replacements ++ [r] }
    rw [collectVarRepsList]
  · intro h hne
    by_cases hm : id ∈ ctx.localBinds
    · exact hm
    · rw [collectVarReplacements, if_neg hm, collectVarRepsList] at h
      obtain rfl : ctx = ctx' := by exact Option.some.inj h
      exact absurd rfl hne

/-- Witness for C5: the same reference node is skipped when `x` is not in the
rename set and rewritten when it is. -/
theorem c5_witness :
    collectVarReplacements
        { filePfx := ['p'], replacements := [], source := ['x'],
          lineOffsets := buildLineOffsets ['x'], localBinds := [] }
        (Node.varNode ['x']
          { isSet := true, beginLine := 1, beginColumn := 1, endLine := 1, endColumn := 2 } [])
      = some
        { filePfx := ['p'], replacements := [], source := ['x'],
          lineOffsets := buildLineOffsets ['x'], localBinds := [] }
    ∧ collectVarReplacements
        { filePfx := ['p'], replacements := [], source := ['x'],
          lineOffsets := buildLineOffsets ['x'], localBinds := [['x']] }
        (Node.varNode ['x']
          { isSet := true, beginLine := 1, beginColumn := 1, endLine := 1, endColumn := 2 } [])
      = some
        { filePfx := ['p'],
          replacements := [{ beginOffset := 0, endOffset := 1, newValue := ['p', '_', 'x'] }],
          source := ['x'], lineOffsets := buildLineOffsets ['x'], localBinds := [['x']] }
    ∧ (['x'] : List Char) ∈ ([['x']] : List (List Char)) := by
  refine ⟨?_, ?_, ?_⟩
  · exact (c5_reference_pass
      { filePfx := ['p'], replacements := [], source := ['x'],
        lineOffsets := buildLineOffsets ['x'], localBinds := [] }
      ['x'] { isSet := true, beginLine := 1, beginColumn := 1, endLine := 1, endColumn := 2 }
      { beginOffset := 0, endOffset := 1, newValue := ['p', '_', 'x'] }
      { filePfx := ['p'], replacements := [], source := ['x'],
        lineOffsets := buildLineOffsets ['x'], localBinds := [] }).1 (by decide)
  · exact (c5_reference_pass
      { filePfx := ['p'], replacements := [], source := ['x'],
        lineOffsets := buildLineOffsets ['x'], localBinds := [['x']] }
      ['x'] { isSet := true, beginLine := 1, beginColumn := 1, endLine := 1, endColumn := 2 }
      { beginOffset := 0, endOffset := 1, newValue := ['p', '_', 'x'] }
      { filePfx := ['p'], replacements := [], source := ['x'],
        lineOffsets := buildLineOffsets ['x'], localBinds := [['x']] }).2.1 (by decide) (by decide)
  · refine (c5_reference_pass
      { filePfx := ['p'], replacements := [], source := ['x'],
        lineOffsets := buildLineOffsets ['x'], localBinds := [['x']] }
      ['x'] { isSet := true, beginLine := 1, beginColumn := 1, endLine := 1, endColumn := 2 }
      { beginOffset := 0, endOffset := 1, newValue := ['p', '_', 'x'] }
      { filePfx := ['p'],
        replacements := [{ beginOffset := 0, endOffset := 1, newValue := ['p', '_', 'x'] }],
        source := ['x'], lineOffsets := buildLineOffsets ['x'], localBinds := [['x']] }).2.2
      ?_ (by decide)
    exact (c5_reference_pass
      { filePfx := ['p'], replacements := [], source := ['x'],
        lineOffsets := buildLineOffsets ['x'], localBinds := [['x']] }
      ['x'] { isSet := true, beginLine := 1, beginColumn := 1, endLine := 1, endColumn := 2 }
      { beginOffset := 0, endOffset := 1, newValue := ['p', '_', 'x'] }
      { filePfx := ['p'],
        replacements := [{ beginOffset := 0, endOffset := 1, newValue := ['p', '_', 'x'] }],
        source := ['x'], lineOffsets := buildLineOffsets ['x'], localBinds := [['x']] }).2.1
      (by decide) (by decide)

/-! ## C2: correctness of the replacement applier -/

/-- Validity of one pending edit against a buffer: the half-open range lies
inside the buffer. -/
def RepValid (src : List Char) (r : Replacement) : Prop :=
  0 ≤ r.beginOffset ∧ r.beginOffset ≤ r.endOffset ∧ r.endOffset ≤ (src.length : Int)

/-- Two pending edits do not overlap: one's range ends before the other begins. -/
def RepDisjoint (r r' : Replacement) : Prop :=
  r.endOffset ≤ r'.beginOffset ∨ r'.endOffset ≤ r.beginOffset

/-- Edits listed from highest begin offset to lowest, each one entirely after
the ranges of all later edits. -/
def ChainDesc : List Replacement → Prop
  | [] => True
  | r :: rs => (∀ r' ∈ rs, r'.endOffset ≤ r.beginOffset) ∧ ChainDesc rs

/-- Edits sorted by begin offset, descending. -/
def SortedByBeginDesc : List Replacement → Prop :=
  List.Pairwise (fun a b => b.beginOffset ≤ a.beginOffset)

/-- Specification rendering of the claim's conclusion, from the spec's words:
the original buffer with every edit's half-open range replaced by its new
text.  The edit list is given sorted by begin offset descending, so the
last-listed edits replace the earliest ranges: each step keeps the bytes
after the head edit's range, substitutes its text, and replaces the
remaining edits inside the bytes before the head edit's begin offset. -/
def replacedBuffer (src : List Char) : List Replacement → List Char
  | [] => src
  | r :: rs =>
      replacedBuffer (src.take r.beginOffset.toNat) rs ++ r.newValue ++ src.drop r.endOffset.toNat

theorem insertDesc_perm (r : Replacement) (l : List Replacement) :
    (insertDesc r l).Perm (r :: l) := by
  induction l with
  | nil => exact List.Perm.refl _
  | cons x xs ih =>
      unfold insertDesc
      by_cases h : x.beginOffset < r.beginOffset
      · rw [if_pos h]
      · rw [if_neg h]
        exact (ih.cons x).trans (List.Perm.swap r x xs)

theorem sortByBeginDesc_perm (l : List Replacement) : (sortByBeginDesc l).Perm l := by
  induction l with
  | nil => exact List.Perm.refl _
  | cons r rs ih => exact (insertDesc_perm r (sortByBeginDesc rs)).trans (ih.cons r)

theorem mem_insertDesc {y r : Replacement} {l : List Replacement} :
    y ∈ insertDesc r l ↔ y = r ∨ y ∈ l := by
  rw [(insertDesc_perm r l).mem_iff, List.mem_cons]

theorem insertDesc_sorted (r : Replacement) (l : List Replacement)
    (h : SortedByBeginDesc l) : SortedByBeginDesc (insertDesc r l) := by
  induction l with
  | nil => exact List.pairwise_singleton _ r
  | cons x xs ih =>
      unfold insertDesc
      obtain ⟨hx, hxs⟩ := List.pairwise_cons.mp h
      by_cases hc : x.beginOffset < r.beginOffset
      · rw [if_pos hc]
        refine List.Pairwise.cons ?_ h
        intro y hy
        rcases List.mem_cons.mp hy with rfl | hy
        · omega
        · have := hx y hy; omega
      · rw [if_neg hc]
        refine List.Pairwise.cons ?_ (ih hxs)
        intro y hy
        rcases mem_insertDesc.mp hy with rfl | hy
        · omega
        · exact hx y hy

theorem sortByBeginDesc_sorted (l : List Replacement) :
    SortedByBeginDesc (sortByBeginDesc l) := by
  induction l with
  | nil => exact List.Pairwise.nil
  | cons r rs ih => exact insertDesc_sorted r _ ih

theorem chainDesc_of (l : List Replacement)
    (hv : ∀ r ∈ l, r.beginOffset ≤ r.endOffset)
    (hnn : List.Pairwise (fun a b => RepDisjoint a b ∧ a.beginOffset ≠ b.beginOffset) l)
    (hs : SortedByBeginDesc l) : ChainDesc l := by
  induction l with
  | nil => trivial
  | cons r rs ih =>
      obtain ⟨hn1, hn2⟩ := List.pairwise_cons.mp hnn
      obtain ⟨hs1, hs2⟩ := List.pairwise_cons.mp hs
      refine ⟨?_, ih (fun x hx => hv x (List.mem_cons_of_mem r hx)) hn2 hs2⟩
      intro r' hr'
      obtain ⟨hd, hne⟩ := hn1 r' hr'
      have h1 := hs1 r' hr'
      have h2 := hv r (List.mem_cons_self r rs)
      have h3 := hv r' (List.mem_cons_of_mem r hr')
      rcases hd with hd | hd <;> · unfold RepDisjoint at *; omega

theorem splice_some (buf : List Char) (r : Replacement) (h : RepValid buf r) :
    splice buf r.beginOffset r.endOffset r.newValue
      = some (buf.take r.beginOffset.toNat ++ r.newValue ++ buf.drop r.endOffset.toNat) := by
  obtain ⟨h1, h2, h3⟩ := h
  unfold splice
  rw [if_pos]
  omega

theorem applyLoop_append (rs : List Replacement) (buf1 buf2 : List Char)
    (hc : ChainDesc rs) (hv : ∀ r ∈ rs, RepValid buf1 r) :
    applyLoop (buf1 ++ buf2) rs = (applyLoop buf1 rs).map (· ++ buf2) := by
  induction rs generalizing buf1 with
  | nil => rfl
  | cons r rs ih =>
      obtain ⟨hc1, hc2⟩ := hc
      have hvr := hv r (List.mem_cons_self r rs)
      obtain ⟨h1, h2, h3⟩ := hvr
      have hb1 : r.beginOffset.toNat ≤ buf1.length := by omega
      have he1 : r.endOffset.toNat ≤ buf1.length := by omega
      have hsp2 : splice (buf1 ++ buf2) r.beginOffset r.endOffset r.newValue
          = some ((buf1.take r.beginOffset.toNat ++ r.newValue ++ buf1.drop r.endOffset.toNat)
              ++ buf2) := by
        rw [splice_some (buf1 ++ buf2) r
          ⟨h1, h2, by rw [List.length_append]; omega⟩]
        rw [List.take_append_of_le_length hb1, List.drop_append_of_le_length he1]
        simp
      have hsp1 := splice_some buf1 r ⟨h1, h2, h3⟩
      unfold applyLoop
      rw [hsp2, hsp1]
      set buf1' := buf1.take r.beginOffset.toNat ++ r.newValue ++ buf1.drop r.endOffset.toNat
        with hbuf1'
      have hlen : (buf1'.length : Int)
          = r.beginOffset + (r.newValue.length : Int) + ((buf1.length : Int) - r.endOffset) := by
        rw [hbuf1']
        simp [List.length_append, List.length_take, List.length_drop]
        omega
      exact ih buf1' hc2 (fun r' hr' => by
        have := hv r' (List.mem_cons_of_mem r hr')
        have := hc1 r' hr'
        unfold RepValid at *
        omega)

theorem applyLoop_chain (rs : List Replacement) (src : List Char)
    (hc : ChainDesc rs) (hv : ∀ r ∈ rs, RepValid src r) :
    applyLoop src rs = some (replacedBuffer src rs) := by
  induction rs generalizing src with
  | nil => rfl
  | cons r rs ih =>
      obtain ⟨hc1, hc2⟩ := hc
      have hvr := hv r (List.mem_cons_self r rs)
      obtain ⟨h1, h2, h3⟩ := hvr
      have hsp := splice_some src r ⟨h1, h2, h3⟩
      unfold applyLoop
      rw [hsp]
      have htake : (src.take r.beginOffset.toNat).length = r.beginOffset.toNat := by
        rw [List.length_take]
        omega
      have hvt : ∀ r' ∈ rs, RepValid (src.take r.beginOffset.toNat) r' := by
        intro r' hr'
        have := hv r' (List.mem_cons_of_mem r hr')
        have := hc1 r' hr'
        unfold RepValid at *
        rw [htake]
        omega
      rw [List.append_assoc]
      show applyLoop (src.take r.beginOffset.toNat ++ (r.newValue ++ src.drop r.endOffset.toNat)) rs
        = some (replacedBuffer src (r :: rs))
      rw [applyLoop_append rs _ _ hc2 hvt, ih _ hc2 hvt]
      show some (replacedBuffer (src.take r.beginOffset.toNat) rs
          ++ (r.newValue ++ src.drop r.endOffset.toNat))
        = some (replacedBuffer src (r :: rs))
      rw [replacedBuffer, List.append_assoc]

instance (src : List Char) (r : Replacement) : Decidable (RepValid src r) := by
  unfold RepValid; infer_instance

instance (r r' : Replacement) : Decidable (RepDisjoint r r') := by
  unfold RepDisjoint; infer_instance

/-- C2 (amended): for any list of pairwise non-overlapping pending edits
with offsets valid in the original buffer, no two of which share the same
begin offset, the Replacement Applier — which sorts by begin offset
descending and splices `buffer[:begin] ++ newText ++ buffer[end:]` in that
order — returns the original buffer with every edit's original range
replaced by its new text. -/
theorem c2_amended (src pfx : List Char) (tbl : List Int) (lb : List (List Char))
    (l : List Replacement)
    (hv : ∀ r ∈ l, RepValid src r)
    (hnn : List.Pairwise (fun a b => RepDisjoint a b ∧ a.beginOffset ≠ b.beginOffset) l) :
    applyReplacements
      { filePfx := pfx, replacements := l, source := src, lineOffsets := tbl, localBinds := lb }
      = some (replacedBuffer src (sortByBeginDesc l)) := by
  have hperm := sortByBeginDesc_perm l
  have hv' : ∀ r ∈ sortByBeginDesc l, RepValid src r := fun r hr => hv r (hperm.mem_iff.mp hr)
  have hsymm : ∀ {x y : Replacement},
      (RepDisjoint x y ∧ x.beginOffset ≠ y.beginOffset)
      → (RepDisjoint y x ∧ y.beginOffset ≠ x.beginOffset) :=
    fun h => ⟨h.1.symm, h.2.symm⟩
  have hnn' := (List.Perm.pairwise_iff hsymm hperm).mpr hnn
  have hchain := chainDesc_of _ (fun r hr => (hv' r hr).2.1) hnn' (sortByBeginDesc_sorted l)
  exact applyLoop_chain _ src hchain hv'

/-- Witness for C2 (amended): two disjoint edits on `abcdef` with distinct
begin offsets. -/
theorem c2_amended_witness :
    applyReplacements
      { filePfx := ['p'],
        replacements :=
          [{ beginOffset := 1, endOffset := 2, newValue := ['X'] },
           { beginOffset := 4, endOffset := 5, newValue := ['Y', 'Z'] }],
        source := ['a', 'b', 'c', 'd', 'e', 'f'], lineOffsets := [0], localBinds := [] }
      = some (replacedBuffer ['a', 'b', 'c', 'd', 'e', 'f']
          (sortByBeginDesc
            [{ beginOffset := 1, endOffset := 2, newValue := ['X'] },
             { beginOffset := 4, endOffset := 5, newValue := ['Y', 'Z'] }])) := by
  exact c2_amended ['a', 'b', 'c', 'd', 'e', 'f'] ['p'] [0] []
    [{ beginOffset := 1, endOffset := 2, newValue := ['X'] },
     { beginOffset := 4, endOffset := 5, newValue := ['Y', 'Z'] }]
    (by decide) (by decide)

/-- Counterexample to C2 as stated: an empty edit `[5,5) -> A` and an edit
`[5,9) -> B` are pairwise non-overlapping (the empty range meets nothing)
and valid in a ten-byte buffer, yet the applier returns `01234B89` — the
inserted text `A` is lost and byte 8 of `B`'s range survives — which is not
the buffer with every edit's range replaced by its text.  The two edits
share the begin offset 5, the case the amendment excludes. -/
theorem c2_counterexample :
    RepValid ['0', '1', '2', '3', '4', '5', '6', '7', '8', '9']
      { beginOffset := 5, endOffset := 9, newValue := ['B'] }
    ∧ RepValid ['0', '1', '2', '3', '4', '5', '6', '7', '8', '9']
      { beginOffset := 5, endOffset := 5, newValue := ['A'] }
    ∧ RepDisjoint { beginOffset := 5, endOffset := 9, newValue := ['B'] }
      { beginOffset := 5, endOffset := 5, newValue := ['A'] }
    ∧ applyReplacements
        { filePfx := ['p'],
          replacements :=
            [{ beginOffset := 5, endOffset := 9, newValue := ['B'] },
             { beginOffset := 5, endOffset := 5, newValue := ['A'] }],
          source := ['0', '1', '2', '3', '4', '5', '6', '7', '8', '9'],
          lineOffsets := [0], localBinds := [] }
      = some ['0', '1', '2', '3', '4', 'B', '8', '9']
    ∧ 'A' ∉ ['0', '1', '2', '3', '4', 'B', '8', '9']
    ∧ ['0', '1', '2', '3', '4', 'B', '8', '9']
        ≠ replacedBuffer ['0', '1', '2', '3', '4', '5', '6', '7', '8', '9']
            (sortByBeginDesc
              [{ beginOffset := 5, endOffset := 9, newValue := ['B'] },
               { beginOffset := 5, endOffset := 5, newValue := ['A'] }]) := by
  decide

/-! ## C9: every accepted replacement is in range and matches its old name -/

/-- Simultaneous induction on a node and on a list of nodes, packaged from
the recursor of the nested inductive `Node`. -/
theorem nodeRecPair (P : Node → Prop) (Q : List Node → Prop)
    (hvar : ∀ id loc cs, Q cs → P (Node.varNode id loc cs))
    (hloc : ∀ binds loc cs, Q cs → P (Node.localNode binds loc cs))
    (hoth : ∀ loc cs, Q cs → P (Node.otherNode loc cs))
    (hnil : Q [])
    (hcons : ∀ n ns, P n → Q ns → Q (n :: ns)) :
    ∀ n, P n :=
  fun n => @Node.rec P Q hvar hloc hoth hnil hcons n

/-- List form of `nodeRecPair`. -/
theorem nodeRecPairList (P : Node → Prop) (Q : List Node → Prop)
    (hvar : ∀ id loc cs, Q cs → P (Node.varNode id loc cs))
    (hloc : ∀ binds loc cs, Q cs → P (Node.localNode binds loc cs))
    (hoth : ∀ loc cs, Q cs → P (Node.otherNode loc cs))
    (hnil : Q [])
    (hcons : ∀ n ns, P n → Q ns → Q (n :: ns)) :
    ∀ ns, Q ns :=
  fun ns => List.rec hnil
    (fun n ns ih => hcons n ns (nodeRecPair P Q hvar hloc hoth hnil hcons n) ih) ns

/-- A replacement whose range re-slices to some old identifier of which the
new text is the prefixed rename. -/
def GoodRep (src pfx : List Char) (r : Replacement) : Prop :=
  ∃ old, goSlice src r.beginOffset r.endOffset = some old
    ∧ r.newValue = pfx ++ '_' :: old

/-- How one collection step may change the context: the prefix, source and
table are untouched, and the replacement list grows only by good edits. -/
def CtxEvolves (ctx ctx' : Context) : Prop :=
  ctx'.filePfx = ctx.filePfx ∧ ctx'.source = ctx.source ∧ ctx'.lineOffsets = ctx.lineOffsets
  ∧ ∀ r ∈ ctx'.replacements, r ∈ ctx.replacements ∨ GoodRep ctx.source ctx.filePfx r

theorem ctxEvolves_refl (ctx : Context) : CtxEvolves ctx ctx :=
  ⟨rfl, rfl, rfl, fun _ hr => Or.inl hr⟩

theorem ctxEvolves_trans {a b c : Context} (h1 : CtxEvolves a b) (h2 : CtxEvolves b c) :
    CtxEvolves a c := by
  obtain ⟨e1, e2, e3, hg1⟩ := h1
  obtain ⟨f1, f2, f3, hg2⟩ := h2
  refine ⟨f1.trans e1, f2.trans e2, f3.trans e3, ?_⟩
  intro r hr
  rcases hg2 r hr with h | h
  · exact hg1 r h
  · rw [e2, e1] at h
    exact Or.inr h

theorem goSlice_some_bounds (src : List Char) (b e : Int) (s : List Char)
    (h : goSlice src b e = some s) :
    0 ≤ b ∧ b ≤ e ∧ e ≤ (src.length : Int) := by
  unfold goSlice at h
  split at h
  · assumption
  · exact Option.noConfusion h

theorem bindFound_good (ctx : Context) (b : LocalBind) (r : Replacement)
    (h : collectLocalBindReplacement ctx b b.varName (ctx.filePfx ++ '_' :: b.varName)
      = CollectResult.found r) :
    GoodRep ctx.source ctx.filePfx r := by
  unfold collectLocalBindReplacement at h
  split at h
  · split at h
    next => exact CollectResult.noConfusion h
    next span heq =>
      split at h
      next hsp =>
        cases h
        exact ⟨span, heq, by rw [hsp]⟩
      next => exact CollectResult.noConfusion h
  · exact CollectResult.noConfusion h

theorem varFound_good (ctx : Context) (loc : LocRange) (id : List Char) (r : Replacement)
    (h : collectVarReplacement ctx loc id (ctx.filePfx ++ '_' :: id) = CollectResult.found r) :
    GoodRep ctx.source ctx.filePfx r := by
  unfold collectVarReplacement at h
  split at h
  · split at h
    next => exact CollectResult.noConfusion h
    next span heq =>
      split at h
      next hsp =>
        cases h
        exact ⟨span, heq, by rw [hsp]⟩
      next => exact CollectResult.noConfusion h
  · exact CollectResult.noConfusion h

theorem collectBinds_evolves : ∀ (bs : List LocalBind) (ctx ctx' : Context),
    collectBinds ctx bs = some ctx' → CtxEvolves ctx ctx' := by
  intro bs
  induction bs with
  | nil =>
      intro ctx ctx' h
      rw [collectBinds] at h
      obtain rfl := Option.some.inj h
      exact ctxEvolves_refl ctx
  | cons b bs ih =>
      intro ctx ctx' h
      rw [collectBinds] at h
      split at h
      next => exact Option.noConfusion h
      next => exact ih ctx ctx' h
      next r heq =>
        refine ctxEvolves_trans ?_ (ih _ ctx' h)
        refine ⟨rfl, rfl, rfl, ?_⟩
        intro r' hr'
        rcases List.mem_append.mp hr' with h' | h'
        · exact Or.inl h'
        · obtain rfl := List.mem_singleton.mp h'
          exact Or.inr (bindFound_good ctx b r' heq)

theorem bindPass_evolves : ∀ (n : Node) (ctx ctx' : Context),
    collectLocalBindReplacements ctx n = some ctx' → CtxEvolves ctx ctx' := by
  refine nodeRecPair
    (fun n => ∀ ctx ctx', collectLocalBindReplacements ctx n = some ctx' → CtxEvolves ctx ctx')
    (fun ns => ∀ ctx ctx', collectLocalBindRepsList ctx ns = some ctx' → CtxEvolves ctx ctx')
    ?_ ?_ ?_ ?_ ?_
  · intro id loc cs hQ ctx ctx' h
    rw [collectLocalBindReplacements] at h
    exact hQ ctx ctx' h
  · intro binds loc cs hQ ctx ctx' h
    rw [collectLocalBindReplacements] at h
    split at h
    next => exact Option.noConfusion h
    next ctx₁ heq => exact ctxEvolves_trans (collectBinds_evolves binds ctx ctx₁ heq) (hQ ctx₁ ctx' h)
  · intro loc cs hQ ctx ctx' h
    rw [collectLocalBindReplacements] at h
    exact hQ ctx ctx' h
  · intro ctx ctx' h
    rw [collectLocalBindRepsList] at h
    obtain rfl := Option.some.inj h
    exact ctxEvolves_refl ctx
  · intro n ns hP hQ ctx ctx' h
    rw [collectLocalBindRepsList] at h
    split at h
    next => exact Option.noConfusion h
    next ctx₁ heq => exact ctxEvolves_trans (hP ctx ctx₁ heq) (hQ ctx₁ ctx' h)

theorem varPass_evolves : ∀ (n : Node) (ctx ctx' : Context),
    collectVarReplacements ctx n = some ctx' → CtxEvolves ctx ctx' := by
  refine nodeRecPair
    (fun n => ∀ ctx ctx', collectVarReplacements ctx n = some ctx' → CtxEvolves ctx ctx')
    (fun ns => ∀ ctx ctx', collectVarRepsList ctx ns = some ctx' → CtxEvolves ctx ctx')
    ?_ ?_ ?_ ?_ ?_
  · intro id loc cs hQ ctx ctx' h
    rw [collectVarReplacements] at h
    by_cases hm : id ∈ ctx.localBinds
    · rw [if_pos hm] at h
      split at h
      next => exact Option.noConfusion h
      next => exact hQ ctx ctx' h
      next r heq =>
        refine ctxEvolves_trans ?_ (hQ _ ctx' h)
        refine ⟨rfl, rfl, rfl, ?_⟩
        intro r' hr'
        rcases List.mem_append.mp hr' with h' | h'
        · exact Or.inl h'
        · obtain rfl := List.mem_singleton.mp h'
          exact Or.inr (varFound_good ctx loc id r' heq)
    · rw [if_neg hm] at h
      exact hQ ctx ctx' h
  · intro binds loc cs hQ ctx ctx' h
    rw [collectVarReplacements] at h
    exact hQ ctx ctx' h
  · intro loc cs hQ ctx ctx' h
    rw [collectVarReplacements] at h
    exact hQ ctx ctx' h
  · intro ctx ctx' h
    rw [collectVarRepsList] at h
    obtain rfl := Option.some.inj h
    exact ctxEvolves_refl ctx
  · intro n ns hP hQ ctx ctx' h
    rw [collectVarRepsList] at h
    split at h
    next => exact Option.noConfusion h
    next ctx₁ heq => exact ctxEvolves_trans (hP ctx ctx₁ heq) (hQ ctx₁ ctx' h)

/-- C9: starting from a context whose accumulated edits are all good, after
the bind pass and then the reference pass every edit in the context — the
list the applier later consumes — satisfies
`0 ≤ beginOffset ≤ endOffset ≤ length source` and re-slices the original
source to exactly the old identifier of which its new text is the prefixed
rename. -/
theorem c9_replacement_invariant (node : Node) (ctx ctx₁ ctx₂ : Context)
    (h1 : collectLocalBindReplacements ctx node = some ctx₁)
    (h2 : collectVarReplacements ctx₁ node = some ctx₂)
    (h0 : ∀ r ∈ ctx.replacements, GoodRep ctx.source ctx.filePfx r) :
    ∀ r ∈ ctx₂.replacements,
      (0 ≤ r.beginOffset ∧ r.beginOffset ≤ r.endOffset
        ∧ r.endOffset ≤ (ctx.source.length : Int))
      ∧ ∃ old, goSlice ctx.source r.beginOffset r.endOffset = some old
          ∧ r.newValue = ctx.filePfx ++ '_' :: old := by
  have e := ctxEvolves_trans (bindPass_evolves node ctx ctx₁ h1) (varPass_evolves node ctx₁ ctx₂ h2)
  intro r hr
  have hgood : GoodRep ctx.source ctx.filePfx r := by
    rcases e.2.2.2 r hr with h | h
    · exact h0 r h
    · exact h
  obtain ⟨old, hsl, hnv⟩ := hgood
  exact ⟨goSlice_some_bounds _ _ _ _ hsl, old, hsl, hnv⟩

/-- Concrete source `local x = 1; x` for the C9 witness. -/
def wSource : List Char := ['l', 'o', 'c', 'a', 'l', ' ', 'x', ' ', '=', ' ', '1', ';', ' ', 'x']

/-- Witness context over `wSource` with prefix `_f`. -/
def wCtx : Context :=
  { filePfx := ['_', 'f'], replacements := [], source := wSource,
    lineOffsets := buildLineOffsets wSource, localBinds := [] }

/-- Witness tree: one local bind of `x` at column 7 and one reference at column 14. -/
def wTree : Node :=
  Node.localNode
    [{ varName := ['x'],
       locRange := { isSet := true, beginLine := 1, beginColumn := 7, endLine := 1, endColumn := 8 } }]
    { isSet := true, beginLine := 1, beginColumn := 7, endLine := 1, endColumn := 8 }
    [Node.varNode ['x']
      { isSet := true, beginLine := 1, beginColumn := 14, endLine := 1, endColumn := 15 } []]

/-- Context after the bind pass on `wTree`. -/
def wCtx1 : Context :=
  { wCtx with
      replacements := [{ beginOffset := 6, endOffset := 7, newValue := ['_', 'f', '_', 'x'] }],
      localBinds := [['x']] }

/-- Context after the reference pass on `wTree`. -/
def wCtx2 : Context :=
  { wCtx1 with
      replacements :=
        [{ beginOffset := 6, endOffset := 7, newValue := ['_', 'f', '_', 'x'] },
         { beginOffset := 13, endOffset := 14, newValue := ['_', 'f', '_', 'x'] }] }

/-- Witness for C9 on a complete two-pass run over `wTree`. -/
theorem c9_witness :
    ((0 : Int) ≤ 13 ∧ (13 : Int) ≤ 14 ∧ (14 : Int) ≤ (wSource.length : Int))
    ∧ ∃ old, goSlice wSource 13 14 = some old
        ∧ ['_', 'f', '_', 'x'] = ['_', 'f'] ++ '_' :: old := by
  have h1 : collectLocalBindReplacements wCtx wTree = some wCtx1 := by
    simp only [wTree, collectLocalBindReplacements, collectLocalBindRepsList, collectBinds]
    decide
  have h2 : collectVarReplacements wCtx1 wTree = some wCtx2 := by
    simp only [wTree, collectVarReplacements, collectVarRepsList]
    decide
  have h := c9_replacement_invariant wTree wCtx wCtx1 wCtx2 h1 h2 (by simp [wCtx])
  exact h { beginOffset := 13, endOffset := 14, newValue := ['_', 'f', '_', 'x'] } (by decide)

/-! ## C3: determinism of the whole pipeline -/

/-- On a tree with a single childless non-binding node the engine leaves the
source unchanged and only prepends the header. -/
theorem runEngine_trivial (path code now : List Char) (loc : LocRange) :
    runEngine path code (Node.otherNode loc []) now
      = some (engineHeader path now ++ code) := by
  simp only [runEngine, collectLocalBindReplacements, collectLocalBindRepsList]
  rfl

/-- Counterexample to C3 as stated: two runs of the engine on identical
input bytes, identical file identity and identical tree, but at different
clock readings, produce different output bytes — the provenance header
embeds the formatted current time. -/
theorem c3_counterexample :
    runEngine ['p'] ['x']
        (Node.otherNode
          { isSet := false, beginLine := 1, beginColumn := 1, endLine := 1, endColumn := 1 } [])
        ['A']
      ≠ runEngine ['p'] ['x']
        (Node.otherNode
          { isSet := false, beginLine := 1, beginColumn := 1, endLine := 1, endColumn := 1 } [])
        ['B'] := by
  rw [runEngine_trivial, runEngine_trivial]
  decide

/-- C3 (amended): two runs on identical bytes with identical file identity
produce outputs that are byte-identical after the provenance header, and
fully byte-identical when the two runs' clock readings also coincide. -/
theorem c3_amended (path code now₁ now₂ : List Char) (ast : Node) (out₁ out₂ : List Char)
    (h1 : runEngine path code ast now₁ = some out₁)
    (h2 : runEngine path code ast now₂ = some out₂) :
    out₁.drop (engineHeader path now₁).length = out₂.drop (engineHeader path now₂).length
    ∧ (now₁ = now₂ → out₁ = out₂) := by
  unfold runEngine at h1 h2
  obtain ⟨ctx₁, e1, h1⟩ := Option.bind_eq_some.mp h1
  obtain ⟨ctx₂, e2, h1⟩ := Option.bind_eq_some.mp h1
  obtain ⟨out, e3, h1⟩ := Option.map_eq_some'.mp h1
  obtain ⟨ctx₁', e1', h2⟩ := Option.bind_eq_some.mp h2
  obtain ⟨ctx₂', e2', h2⟩ := Option.bind_eq_some.mp h2
  obtain ⟨out', e3', h2⟩ := Option.map_eq_some'.mp h2
  rw [e1] at e1'
  obtain rfl := Option.some.inj e1'
  rw [e2] at e2'
  obtain rfl := Option.some.inj e2'
  rw [e3] at e3'
  obtain rfl := Option.some.inj e3'
  subst h1 h2
  constructor
  · rw [List.drop_left, List.drop_left]
  · intro h
    rw [h]

/-- Witness for C3 (amended): concrete runs over a one-node tree at clock
readings `A` and `B`. -/
theorem c3_amended_witness :
    (engineHeader ['p'] ['A'] ++ ['x']).drop (engineHeader ['p'] ['A']).length
      = (engineHeader ['p'] ['B'] ++ ['x']).drop (engineHeader ['p'] ['B']).length
    ∧ engineHeader ['p'] ['A'] ++ ['x'] = engineHeader ['p'] ['A'] ++ ['x'] := by
  constructor
  · exact (c3_amended ['p'] ['x'] ['A'] ['B']
      (Node.otherNode
        { isSet := false, beginLine := 1, beginColumn := 1, endLine := 1, endColumn := 1 } [])
      _ _
      (runEngine_trivial ['p'] ['x'] ['A'] _)
      (runEngine_trivial ['p'] ['x'] ['B'] _)).1
  · exact (c3_amended ['p'] ['x'] ['A'] ['A']
      (Node.otherNode
        { isSet := false, beginLine := 1, beginColumn := 1, endLine := 1, endColumn := 1 } [])
      _ _
      (runEngine_trivial ['p'] ['x'] ['A'] _)
      (runEngine_trivial ['p'] ['x'] ['A'] _)).2 rfl

end JsonnetBundler
